import Mathlib

/-!
Verification of the CPM scheduling engine of this repository
(`src/cpm_app.py`, `src/constraints.py`).

The Python code is shallowly embedded: the constraint parser, the
networkx-backed graph construction, the cycle check, the forward and
backward CPM passes, and the result compilation are translated into
executable Lean definitions, and the specification claims are settled
as theorems about those definitions.
-/

namespace CPM

/-- The four precedence relation types of `constraints.py` / `cpm_app.py`. -/
inductive RelType
  | FS
  | SS
  | FF
  | SF
deriving DecidableEq

/-- One parsed constraint record, as produced by `parse_logic_constraints`
(a dict with keys predecessor/type/lag in the Python source). -/
structure Rel where
  predecessor : String
  type : RelType
  lag : Int
deriving DecidableEq

/-- Characters accepted by the `[A-Za-z0-9_]` class of the regex in
`constraints.py`. -/
def isIdChar (c : Char) : Bool :=
  (('A' ≤ c && c ≤ 'Z') || ('a' ≤ c && c ≤ 'z') || ('0' ≤ c && c ≤ '9') || c == '_')

/-- Whitespace, as Python `str.strip()` removes it. -/
def isSpaceChar (c : Char) : Bool :=
  c == ' ' || c == '\t' || c == '\n' || c == '\r'

/-- Python `s.strip()`. -/
def pyStrip (s : String) : String :=
  String.mk (((s.data.dropWhile isSpaceChar).reverse.dropWhile isSpaceChar).reverse)

/-- Python `s.split(sep)` for a one-character separator: note that splitting
the empty string yields `[""]`, exactly as in Python. -/
def pySplit (sep : Char) (s : String) : List String :=
  (s.data.foldr
    (fun c acc =>
      match acc with
      | [] => [[c]]
      | g :: gs => if c == sep then [] :: g :: gs else (c :: g) :: gs)
    [[]]).map String.mk

/-- The two-letter relation codes accepted by the regex alternation
`(FS|SS|FF|SF)`. -/
def relCode (c1 c2 : Char) : Option RelType :=
  if c1 == 'F' && c2 == 'S' then some RelType.FS
  else if c1 == 'S' && c2 == 'S' then some RelType.SS
  else if c1 == 'F' && c2 == 'F' then some RelType.FF
  else if c1 == 'S' && c2 == 'F' then some RelType.SF
  else none

/-- Value of a digit run, most significant first. -/
def digitsToNat (l : List Char) : Nat :=
  l.foldl (fun n c => n * 10 + (c.toNat - 48)) 0

/-- Embedding of `re.match(r'([A-Za-z0-9_]+)\[(FS|SS|FF|SF)([+-]\d+)?\]', part)`
from `constraints.py`: an anchored-at-start match (trailing text after the
closing bracket is ignored, as `re.match` does not anchor at the end). -/
def matchToken (cs : List Char) : Option Rel :=
  let idc := cs.takeWhile isIdChar
  let rest := cs.dropWhile isIdChar
  if idc.isEmpty then none
  else
    match rest with
    | '[' :: c1 :: c2 :: rest2 =>
      match relCode c1 c2 with
      | none => none
      | some t =>
        match rest2 with
        | ']' :: _ => some ⟨String.mk idc, t, 0⟩
        | sign :: rest3 =>
          if sign == '+' || sign == '-' then
            let ds := rest3.takeWhile Char.isDigit
            let rest4 := rest3.dropWhile Char.isDigit
            if ds.isEmpty then none
            else
              match rest4 with
              | ']' :: _ =>
                some ⟨String.mk idc, t,
                      if sign == '-' then -(digitsToNat ds : Int) else (digitsToNat ds : Int)⟩
              | _ => none
          else none
        | [] => none
    | _ => none

/-- Embedding of `parse_logic_constraints` from `constraints.py`:
empty / whitespace-only input yields `[]`; otherwise the string is split
on `;`, each part is stripped and matched, and non-matching parts are
dropped. The function is total: it never fails. -/
def parse_logic_constraints (s : String) : List Rel :=
  if pyStrip s = "" then []
  else (pySplit ';' s).filterMap (fun part => matchToken (pyStrip part).data)

/-- Second, spec-side definition (it follows the words of the spec, not the
code): the number of tokens of the input that the grammar of
`parse_logic_constraints` skips. The code returns no such count; this
definition exists only to compare the spec with the code. -/
def specSkippedTokens (s : String) : Nat :=
  if pyStrip s = "" then 0
  else ((pySplit ';' s).filter (fun part => (matchToken (pyStrip part).data).isNone)).length

/-- A typed precedence edge of the networkx `DiGraph` built in
`cpm_app.py` (`graph.add_edge(pred, aid, type=..., lag=...)`). -/
structure Edge where
  pred : String
  succ : String
  type : RelType
  lag : Int
deriving DecidableEq

/-- The project graph. Nodes are kept in networkx insertion order together
with their `duration` attribute; a node created implicitly by `add_edge`
(an endpoint never declared with `add_node`) carries no duration attribute,
which `graph.nodes[n].get('duration', 0)` later reads as 0 — that is the
`Option Int` here. -/
structure CPMGraph where
  nodes : List (String × Option Int)
  edges : List Edge
deriving DecidableEq

/-- `graph.add_node(aid, ..., duration=d)`: inserting an existing id updates
its attributes in place (keeping its position); a new id is appended. -/
def addNode (g : CPMGraph) (id : String) (d : Int) : CPMGraph :=
  if g.nodes.any (fun p => p.1 == id) then
    { g with nodes := g.nodes.map (fun p => if p.1 == id then (p.1, some d) else p) }
  else
    { g with nodes := g.nodes ++ [(id, some d)] }

/-- networkx `add_edge` first makes sure each endpoint exists as a node,
creating it without attributes when absent. -/
def ensureNode (g : CPMGraph) (id : String) : CPMGraph :=
  if g.nodes.any (fun p => p.1 == id) then g
  else { g with nodes := g.nodes ++ [(id, none)] }

/-- `graph.add_edge(pred, succ, type=t, lag=l)`: missing endpoints are
silently created; an existing `(pred, succ)` edge has its attributes
overwritten, otherwise the edge is appended. -/
def addEdge (g : CPMGraph) (p s : String) (t : RelType) (l : Int) : CPMGraph :=
  let g1 := ensureNode (ensureNode g p) s
  if g1.edges.any (fun e => e.pred == p && e.succ == s) then
    { g1 with edges := g1.edges.map (fun e =>
        if e.pred == p && e.succ == s then ⟨e.pred, e.succ, t, l⟩ else e) }
  else
    { g1 with edges := g1.edges ++ [⟨p, s, t, l⟩] }

/-- `graph.nodes[n].get('duration', 0)`. -/
def durOf (g : CPMGraph) (n : String) : Int :=
  match g.nodes.find? (fun p => p.1 == n) with
  | some (_, some d) => d
  | _ => 0

/-- One input row of the schedule table (`Activity ID`, `Activity Name`,
`Duration`, `Predecessors`, `Constraint`). -/
structure Row where
  activityId : String
  activityName : String
  duration : Int
  predecessors : String
  constraint : String
deriving DecidableEq

/-- `[x.strip() for x in str(row['Predecessors']).split(',') if x.strip() != '']`. -/
def splitPreds (s : String) : List String :=
  ((pySplit ',' s).map pyStrip).filter (fun x => x ≠ "")

/-- One iteration of the graph-building loop of `cpm_app.py` (lines 71-84):
skip rows with an empty id, declare the node, and add edges — from the
parsed constraints when there are any, otherwise bare predecessors become
FS edges with lag 0 — but only when the `Predecessors` field is non-empty. -/
def buildRow (g : CPMGraph) (row : Row) : CPMGraph :=
  let aid := pyStrip row.activityId
  if aid = "" then g
  else
    let g1 := addNode g aid row.duration
    let cs := parse_logic_constraints row.constraint
    if row.predecessors ≠ "" then
      if cs = [] then
        (splitPreds row.predecessors).foldl (fun h p => addEdge h p aid RelType.FS 0) g1
      else
        cs.foldl (fun h c => addEdge h c.predecessor aid c.type c.lag) g1
    else g1

/-- The whole graph-building loop over the data rows. -/
def buildGraph (rows : List Row) : CPMGraph :=
  rows.foldl buildRow ⟨[], []⟩

/-- Python dict read with default: `m.get(k, 0)`. The state lists below are
built by prepending, so `find?` returns the most recent binding, exactly as
a Python dict holds the last assignment. -/
def lookupD (m : List (String × Int)) (k : String) : Int :=
  match m.find? (fun p => p.1 == k) with
  | some p => p.2
  | none => 0

/-- State of the forward pass: the `es` and `ef` dicts. -/
structure FwdState where
  es : List (String × Int)
  ef : List (String × Int)
deriving DecidableEq

/-- Contribution of one incoming edge to `es[node]` in the forward loop of
`cpm_app.py` (lines 102-118), for a node of duration `d`. -/
def contribF (es ef : List (String × Int)) (d : Int) (e : Edge) : Int :=
  match e.type with
  | RelType.FS => lookupD ef e.pred + e.lag
  | RelType.SS => lookupD es e.pred + e.lag
  | RelType.FF => lookupD ef e.pred + e.lag - d
  | RelType.SF => lookupD es e.pred + e.lag - d

/-- Processing of one node in the forward pass: `es[node] = 0`, then a
max-fold over the incoming edges, then `ef[node] = es[node] + duration`. -/
def fwdNode (g : CPMGraph) (s : FwdState) (n : String) : FwdState :=
  let d := durOf g n
  let inc := g.edges.filter (fun e => e.succ == n)
  let v := inc.foldl (fun acc e => max acc (contribF s.es s.ef d e)) 0
  ⟨(n, v) :: s.es, (n, v + d) :: s.ef⟩

/-- The forward pass over a processing order. -/
def fwdFold (g : CPMGraph) (s : FwdState) : List String → FwdState
  | [] => s
  | n :: rest => fwdFold g (fwdNode g s n) rest

/-- `end_node = max(ef, key=ef.get); project_duration = ef[end_node]` —
the maximum of the `ef` values, 0 when the dict is empty. -/
def maxEF (ef : List (String × Int)) : Int :=
  match ef with
  | [] => 0
  | p :: ps => ps.foldl (fun m q => max m q.2) p.2

/-- State of the backward pass: the `lf` and `ls` dicts. -/
structure BwdState where
  lf : List (String × Int)
  ls : List (String × Int)
deriving DecidableEq

/-- Contribution of one outgoing edge to `lf[node]` in the backward loop of
`cpm_app.py` (lines 131-140). Note the SF case reads the forward `es` dict. -/
def contribB (esF : List (String × Int)) (lfM lsM : List (String × Int)) (e : Edge) : Int :=
  match e.type with
  | RelType.FS => lookupD lsM e.succ - e.lag
  | RelType.SS => lookupD lsM e.succ - e.lag
  | RelType.FF => lookupD lfM e.succ - e.lag
  | RelType.SF => lookupD esF e.succ - e.lag

/-- Processing of one node in the backward pass: `lf[node] = project_duration`,
then a min-fold over the outgoing edges, then `ls[node] = lf[node] - duration`. -/
def bwdNode (g : CPMGraph) (P : Int) (esF : List (String × Int))
    (s : BwdState) (n : String) : BwdState :=
  let d := durOf g n
  let out := g.edges.filter (fun e => e.pred == n)
  let v := out.foldl (fun acc e => min acc (contribB esF s.lf s.ls e)) P
  ⟨(n, v) :: s.lf, (n, v - d) :: s.ls⟩

/-- The backward pass over a processing order (the reversed topological
order in the pipeline). -/
def bwdFold (g : CPMGraph) (P : Int) (esF : List (String × Int)) (s : BwdState) :
    List String → BwdState
  | [] => s
  | n :: rest => bwdFold g P esF (bwdNode g P esF s n) rest

/-- Kahn step: the first remaining node every one of whose incoming edges
comes from an already removed node. -/
def kahnPick (edges : List Edge) (remaining : List String) : Option String :=
  remaining.find? (fun n => edges.all (fun e => e.succ != n || !(remaining.contains e.pred)))

/-- Kahn topological sort, the embedding of `nx.topological_sort` (the
pipeline only reaches it on acyclic graphs, the cycle check having run
first; the deterministic tie-break is node insertion order). -/
def kahnAux (edges : List Edge) : Nat → List String → List String
  | 0, _ => []
  | fuel + 1, remaining =>
    match kahnPick edges remaining with
    | none => []
    | some n => n :: kahnAux edges fuel (remaining.erase n)

/-- Topological order of the graph nodes. -/
def topoOrder (g : CPMGraph) : List String :=
  kahnAux g.edges g.nodes.length (g.nodes.map (fun p => p.1))

/-- Depth-first search for a cycle, the embedding of `nx.find_cycle`:
`path` is the current DFS stack, the third argument the successors still
to explore from the top of the stack; on hitting a node already on the
stack the cycle (the stack from that node on) is returned. -/
def dfsCycle (edges : List Edge) : Nat → List String → List String → Option (List String)
  | 0, _, _ => none
  | _ + 1, _, [] => none
  | fuel + 1, path, v :: vs =>
    if path.contains v then some (path.dropWhile (fun x => x != v))
    else
      match dfsCycle edges fuel (path ++ [v]) ((edges.filter (fun e => e.pred == v)).map (fun e => e.succ)) with
      | some c => some c
      | none => dfsCycle edges fuel path vs

/-- Try a DFS from every node in insertion order, as `nx.find_cycle` does. -/
def findCycleAux (edges : List Edge) (fuel : Nat) : List String → Option (List String)
  | [] => none
  | n :: rest =>
    match dfsCycle edges fuel [] [n] with
    | some c => some c
    | none => findCycleAux edges fuel rest

/-- The cycle check of `cpm_app.py` (lines 86-93): the node list of some
cycle of the graph, `none` when the graph is acyclic. -/
def findCycle (g : CPMGraph) : Option (List String) :=
  findCycleAux g.edges ((g.nodes.length + 1) * (g.edges.length + 1) + 1) (g.nodes.map (fun p => p.1))

/-- One output row of the results table (calendar dates are represented by
the `es`/`ef` day offsets they are derived from in computed-dates mode). -/
structure ResultRow where
  id : String
  name : String
  duration : Int
  es : Int
  ef : Int
  float : Int
  critical : Bool
deriving DecidableEq

/-- The results-compilation loop of `cpm_app.py` (lines 150-172): one output
row per input row whose id reached both passes, with
`tf = ls[aid] - es[aid]` and `Critical = (tf == 0)`. -/
def compileResults (g : CPMGraph) (esM efM lsM : List (String × Int))
    (rows : List Row) : List ResultRow :=
  rows.filterMap (fun row =>
    let aid := pyStrip row.activityId
    if (esM.any (fun p => p.1 == aid)) && (lsM.any (fun p => p.1 == aid)) then
      let tf := lookupD lsM aid - lookupD esM aid
      some ⟨aid, row.activityName, durOf g aid, lookupD esM aid, lookupD efM aid, tf, tf == 0⟩
    else none)

/-- The error raised by the pipeline; the cycle check reports the node list
of the discovered cycle and stops the computation (`st.error` + `st.stop`). -/
inductive CPMError
  | cyclicDependency (nodes : List String)
deriving DecidableEq

/-- The `es`/`ef` dicts after the forward pass of the pipeline. -/
def forwardResult (g : CPMGraph) (order : List String) : FwdState :=
  fwdFold g ⟨[], []⟩ order

/-- The project duration: the maximum `ef` after the forward pass. -/
def projectDuration (g : CPMGraph) (order : List String) : Int :=
  maxEF (forwardResult g order).ef

/-- The `lf`/`ls` dicts after the backward pass of the pipeline, which runs
over the reversed order with the project duration as the terminal bound. -/
def backwardResult (g : CPMGraph) (order : List String) : BwdState :=
  bwdFold g (projectDuration g order) (forwardResult g order).es ⟨[], []⟩ order.reverse

/-- The whole scheduling pipeline of `cpm_app.py`: build the graph, stop on
a cycle, run the forward pass in topological order, take the project
duration as the maximum `ef`, run the backward pass in reversed order, and
compile the result rows. Returns the rows and the project duration. -/
def runPipeline (rows : List Row) : Except CPMError (List ResultRow × Int) :=
  let g := buildGraph rows
  match findCycle g with
  | some c => Except.error (CPMError.cyclicDependency c)
  | none =>
    Except.ok
      (compileResults g (forwardResult g (topoOrder g)).es (forwardResult g (topoOrder g)).ef
        (backwardResult g (topoOrder g)).ls rows,
       projectDuration g (topoOrder g))

/-- Whether the pipeline produced a schedule (did not stop on an error). -/
def pipelineProducesSchedule (rows : List Row) : Bool :=
  match runPipeline rows with
  | Except.ok _ => true
  | Except.error _ => false

/-- The critical-path sequence emitted at line 198 of `cpm_app.py`: the ids
of the result rows flagged critical, in the order of the results table. -/
def criticalSeq (res : List ResultRow) : List String :=
  (res.filter (fun r => r.critical)).map (fun r => r.id)

/-- Insertion of a result row into a list sorted by ascending `es`, ties
broken by id — used only by the spec-side ordering below. -/
def insertByKey (r : ResultRow) : List ResultRow → List ResultRow
  | [] => [r]
  | x :: xs =>
    if r.es < x.es || (r.es == x.es && r.id < x.id) then r :: x :: xs
    else x :: insertByKey r xs

/-- Second, spec-side definition (it follows the words of the spec, not the
code): the critical activities ordered by ascending ES, ties broken
lexicographically by id. -/
def specCriticalSeq (res : List ResultRow) : List String :=
  ((res.filter (fun r => r.critical)).foldr insertByKey []).map (fun r => r.id)

/-- Spec-side contribution table of §4.3 for the forward pass, written from
the spec's words: FS gives `EF[pred] + lag`, SS gives `ES[pred] + lag`,
FF gives `EF[pred] + lag - d`, SF gives `ES[pred] + lag - d`. -/
def specContribF (esM efM : List (String × Int)) (d : Int) (e : Edge) : Int :=
  match e.type with
  | RelType.FS => lookupD efM e.pred + e.lag
  | RelType.SS => lookupD esM e.pred + e.lag
  | RelType.FF => lookupD efM e.pred + e.lag - d
  | RelType.SF => lookupD esM e.pred + e.lag - d

/-- Spec-side recurrence of §4.3: `ES[n]` is the max-fold, started at 0,
of the contributions of the incoming edges of `n`. -/
def esSpec (g : CPMGraph) (esM efM : List (String × Int)) (n : String) : Int :=
  (g.edges.filter (fun e => e.succ == n)).foldl
    (fun acc e => max acc (specContribF esM efM (durOf g n) e)) 0

/-- Spec-side contribution table of §4.4 for the backward pass: FS and SS
give `LS[succ] - lag`, FF gives `LF[succ] - lag`, SF gives `ES[succ] - lag`. -/
def specContribB (esF lfM lsM : List (String × Int)) (e : Edge) : Int :=
  match e.type with
  | RelType.FS => lookupD lsM e.succ - e.lag
  | RelType.SS => lookupD lsM e.succ - e.lag
  | RelType.FF => lookupD lfM e.succ - e.lag
  | RelType.SF => lookupD esF e.succ - e.lag

/-- Spec-side recurrence of §4.4: `LF[n]` is the min-fold, started at the
project duration `P`, of the contributions of the outgoing edges of `n`. -/
def lfSpec (g : CPMGraph) (esF lfM lsM : List (String × Int)) (P : Int) (n : String) : Int :=
  (g.edges.filter (fun e => e.pred == n)).foldl
    (fun acc e => min acc (specContribB esF lfM lsM e)) P

/-- `order` is a forward processing order consistent with the edges: when a
node is processed, the predecessor of each of its incoming edges has been
processed before (`seen`). -/
def topoOK (edges : List Edge) : List String → List String → Bool
  | _, [] => true
  | seen, n :: rest =>
    edges.all (fun e => e.succ != n || seen.contains e.pred) && topoOK edges (n :: seen) rest

/-- `order` is a backward processing order consistent with the edges: when a
node is processed, the successor of each of its outgoing edges has been
processed before. -/
def bwdOK (edges : List Edge) : List String → List String → Bool
  | _, [] => true
  | seen, n :: rest =>
    edges.all (fun e => e.pred != n || seen.contains e.succ) && bwdOK edges (n :: seen) rest

theorem lookupD_cons (a : String) (v : Int) (m : List (String × Int)) (k : String) :
    lookupD ((a, v) :: m) k = if a = k then v else lookupD m k := by
  by_cases h : a = k
  · simp [lookupD, List.find?, h]
  · have hb : (a == k) = false := beq_eq_false_iff_ne.mpr h
    simp [lookupD, List.find?, hb, h]

theorem fwdFold_preserve (g : CPMGraph) :
    ∀ (rest : List String) (s : FwdState) (k : String), k ∉ rest →
      lookupD (fwdFold g s rest).es k = lookupD s.es k ∧
      lookupD (fwdFold g s rest).ef k = lookupD s.ef k := by
  intro rest
  induction rest with
  | nil => intro s k _; exact ⟨rfl, rfl⟩
  | cons n rest ih =>
    intro s k hk
    have hkn : n ≠ k := fun h => hk (h ▸ List.mem_cons_self n rest)
    have hkr : k ∉ rest := fun h => hk (List.mem_cons_of_mem n h)
    have hstep := ih (fwdNode g s n) k hkr
    rw [fwdFold, hstep.1, hstep.2] at *
    constructor
    · show lookupD ((n, _) :: s.es) k = lookupD s.es k
      rw [lookupD_cons, if_neg hkn]
    · show lookupD ((n, _) :: s.ef) k = lookupD s.ef k
      rw [lookupD_cons, if_neg hkn]

theorem bwdFold_preserve (g : CPMGraph) (P : Int) (esF : List (String × Int)) :
    ∀ (rest : List String) (s : BwdState) (k : String), k ∉ rest →
      lookupD (bwdFold g P esF s rest).lf k = lookupD s.lf k ∧
      lookupD (bwdFold g P esF s rest).ls k = lookupD s.ls k := by
  intro rest
  induction rest with
  | nil => intro s k _; exact ⟨rfl, rfl⟩
  | cons n rest ih =>
    intro s k hk
    have hkn : n ≠ k := fun h => hk (h ▸ List.mem_cons_self n rest)
    have hkr : k ∉ rest := fun h => hk (List.mem_cons_of_mem n h)
    have hstep := ih (bwdNode g P esF s n) k hkr
    rw [bwdFold, hstep.1, hstep.2] at *
    constructor
    · show lookupD ((n, _) :: s.lf) k = lookupD s.lf k
      rw [lookupD_cons, if_neg hkn]
    · show lookupD ((n, _) :: s.ls) k = lookupD s.ls k
      rw [lookupD_cons, if_neg hkn]

theorem fwdFold_ef_eq_es_add (g : CPMGraph) :
    ∀ (rest : List String) (s : FwdState) (n : String), n ∈ rest →
      lookupD (fwdFold g s rest).ef n = lookupD (fwdFold g s rest).es n + durOf g n := by
  intro rest
  induction rest with
  | nil => intro s n h; cases h
  | cons m rest ih =>
    intro s n hn
    rw [fwdFold]
    by_cases hr : n ∈ rest
    · exact ih _ n hr
    · have hnm : n = m := by
        rcases List.mem_cons.mp hn with h | h
        · exact h
        · exact absurd h hr
      subst hnm
      have hpres := fwdFold_preserve g rest (fwdNode g s n) n hr
      rw [hpres.1, hpres.2]
      show lookupD ((n, _) :: s.ef) n = lookupD ((n, _) :: s.es) n + durOf g n
      rw [lookupD_cons, if_pos rfl, lookupD_cons, if_pos rfl]

theorem foldl_comb_congr (comb : Int → Int → Int) :
    ∀ (l : List Edge) (f h : Edge → Int) (a : Int), (∀ e ∈ l, f e = h e) →
      l.foldl (fun acc e => comb acc (f e)) a = l.foldl (fun acc e => comb acc (h e)) a := by
  intro l
  induction l with
  | nil => intro f h a _; rfl
  | cons e l ih =>
    intro f h a hfh
    have he : f e = h e := hfh e (List.mem_cons_self e l)
    simp only [List.foldl_cons, he]
    exact ih f h (comb a (h e)) (fun x hx => hfh x (List.mem_cons_of_mem e hx))

theorem foldl_max_init_le (f : Edge → Int) :
    ∀ (l : List Edge) (a : Int), a ≤ l.foldl (fun acc e => max acc (f e)) a := by
  intro l
  induction l with
  | nil => intro a; exact le_refl a
  | cons e l ih =>
    intro a
    exact le_trans (le_max_left a (f e)) (ih (max a (f e)))

theorem foldl_max_const (f : Edge → Int) :
    ∀ (l : List Edge) (a : Int), (∀ e ∈ l, f e ≤ a) →
      l.foldl (fun acc e => max acc (f e)) a = a := by
  intro l
  induction l with
  | nil => intro a _; rfl
  | cons e l ih =>
    intro a hle
    have : max a (f e) = a := max_eq_left (hle e (List.mem_cons_self e l))
    simp only [List.foldl_cons, this]
    exact ih a (fun x hx => hle x (List.mem_cons_of_mem e hx))

theorem bwdFold_ls_eq_lf_sub (g : CPMGraph) (P : Int) (esF : List (String × Int)) :
    ∀ (rest : List String) (s : BwdState) (n : String), n ∈ rest →
      lookupD (bwdFold g P esF s rest).ls n = lookupD (bwdFold g P esF s rest).lf n - durOf g n := by
  intro rest
  induction rest with
  | nil => intro s n h; cases h
  | cons m rest ih =>
    intro s n hn
    rw [bwdFold]
    by_cases hr : n ∈ rest
    · exact ih _ n hr
    · have hnm : n = m := by
        rcases List.mem_cons.mp hn with h | h
        · exact h
        · exact absurd h hr
      subst hnm
      have hpres := bwdFold_preserve g P esF rest (bwdNode g P esF s n) n hr
      rw [hpres.1, hpres.2]
      show lookupD ((n, _) :: s.ls) n = lookupD ((n, _) :: s.lf) n - durOf g n
      rw [lookupD_cons, if_pos rfl, lookupD_cons, if_pos rfl]

/-- Core invariant of the forward pass: on a duplicate-free processing order
that respects the edges, the final `es` dict satisfies, at every processed
node, the spec recurrence stated over the final maps. -/
theorem fwdFold_fixed_point (g : CPMGraph) :
    ∀ (rest seen : List String) (s : FwdState),
      topoOK g.edges seen rest = true →
      (∀ k ∈ seen, k ∉ rest) →
      rest.Nodup →
      ∀ n ∈ rest,
        lookupD (fwdFold g s rest).es n
          = esSpec g (fwdFold g s rest).es (fwdFold g s rest).ef n := by
  intro rest
  induction rest with
  | nil => intro seen s _ _ _ n hn; cases hn
  | cons m rest ih =>
    intro seen s htopo hseen hnodup n hn
    have hm : m ∉ rest := (List.nodup_cons.mp hnodup).1
    have hnodup2 : rest.Nodup := (List.nodup_cons.mp hnodup).2
    rw [topoOK, Bool.and_eq_true] at htopo
    have hand := htopo
    have hall : ∀ e ∈ g.edges, (e.succ != m || seen.contains e.pred) = true :=
      fun e he => List.all_eq_true.mp hand.1 e he
    rw [fwdFold]
    by_cases hr : n ∈ rest
    · refine ih (m :: seen) (fwdNode g s m) hand.2 ?_ hnodup2 n hr
      intro k hk
      rcases List.mem_cons.mp hk with h | h
      · exact h ▸ hm
      · exact fun hkr => hseen k h (List.mem_cons_of_mem m hkr)
    · have hnm : n = m := by
        rcases List.mem_cons.mp hn with h | h
        · exact h
        · exact absurd h hr
      subst hnm
      have hpres := fwdFold_preserve g rest (fwdNode g s n) n hr
      rw [hpres.1]
      have hstep : lookupD (fwdNode g s n).es n
          = (g.edges.filter (fun e => e.succ == n)).foldl
              (fun acc e => max acc (contribF s.es s.ef (durOf g n) e)) 0 := by
        show lookupD ((n, _) :: s.es) n = _
        rw [lookupD_cons, if_pos rfl]
      rw [hstep, esSpec]
      refine foldl_comb_congr max _ _ _ 0 ?_
      intro e he
      have hef : e ∈ g.edges := (List.mem_filter.mp he).1
      have hsucc : e.succ = n := by
        have := (List.mem_filter.mp he).2
        simpa using this
      have hpredseen : e.pred ∈ seen := by
        have hor := hall e hef
        rw [Bool.or_eq_true] at hor
        rcases hor with h2 | h2
        · exact absurd hsucc (bne_iff_ne.mp h2)
        · simpa using h2
      have hpred_notin : e.pred ∉ n :: rest := hseen e.pred hpredseen
      have hpn : n ≠ e.pred := fun h => hpred_notin (h ▸ List.mem_cons_self n rest)
      have hpr : e.pred ∉ rest := fun h => hpred_notin (List.mem_cons_of_mem n h)
      have hprev := fwdFold_preserve g rest (fwdNode g s n) e.pred hpr
      have hes : lookupD (fwdFold g (fwdNode g s n) rest).es e.pred = lookupD s.es e.pred := by
        rw [hprev.1]
        show lookupD ((n, _) :: s.es) e.pred = _
        rw [lookupD_cons, if_neg hpn]
      have hef2 : lookupD (fwdFold g (fwdNode g s n) rest).ef e.pred = lookupD s.ef e.pred := by
        rw [hprev.2]
        show lookupD ((n, _) :: s.ef) e.pred = _
        rw [lookupD_cons, if_neg hpn]
      cases htype : e.type <;> simp [contribF, specContribF, htype, hes, hef2]

/-- Core invariant of the backward pass, the mirror of the forward one: on
a duplicate-free processing order in which every outgoing edge points to an
already processed node, the final `lf` dict satisfies the spec recurrence
stated over the final maps. -/
theorem bwdFold_fixed_point (g : CPMGraph) (P : Int) (esF : List (String × Int)) :
    ∀ (rest seen : List String) (s : BwdState),
      bwdOK g.edges seen rest = true →
      (∀ k ∈ seen, k ∉ rest) →
      rest.Nodup →
      ∀ n ∈ rest,
        lookupD (bwdFold g P esF s rest).lf n
          = lfSpec g esF (bwdFold g P esF s rest).lf (bwdFold g P esF s rest).ls P n := by
  intro rest
  induction rest with
  | nil => intro seen s _ _ _ n hn; cases hn
  | cons m rest ih =>
    intro seen s hbwd hseen hnodup n hn
    have hm : m ∉ rest := (List.nodup_cons.mp hnodup).1
    have hnodup2 : rest.Nodup := (List.nodup_cons.mp hnodup).2
    rw [bwdOK, Bool.and_eq_true] at hbwd
    have hand := hbwd
    have hall : ∀ e ∈ g.edges, (e.pred != m || seen.contains e.succ) = true :=
      fun e he => List.all_eq_true.mp hand.1 e he
    rw [bwdFold]
    by_cases hr : n ∈ rest
    · refine ih (m :: seen) (bwdNode g P esF s m) hand.2 ?_ hnodup2 n hr
      intro k hk
      rcases List.mem_cons.mp hk with h | h
      · exact h ▸ hm
      · exact fun hkr => hseen k h (List.mem_cons_of_mem m hkr)
    · have hnm : n = m := by
        rcases List.mem_cons.mp hn with h | h
        · exact h
        · exact absurd h hr
      subst hnm
      have hpres := bwdFold_preserve g P esF rest (bwdNode g P esF s n) n hr
      rw [hpres.1]
      have hstep : lookupD (bwdNode g P esF s n).lf n
          = (g.edges.filter (fun e => e.pred == n)).foldl
              (fun acc e => min acc (contribB esF s.lf s.ls e)) P := by
        show lookupD ((n, _) :: s.lf) n = _
        rw [lookupD_cons, if_pos rfl]
      rw [hstep, lfSpec]
      refine foldl_comb_congr min _ _ _ P ?_
      intro e he
      have hef : e ∈ g.edges := (List.mem_filter.mp he).1
      have hpredn : e.pred = n := by
        have := (List.mem_filter.mp he).2
        simpa using this
      have hsuccseen : e.succ ∈ seen := by
        have hor := hall e hef
        rw [Bool.or_eq_true] at hor
        rcases hor with h2 | h2
        · exact absurd hpredn (bne_iff_ne.mp h2)
        · simpa using h2
      have hsucc_notin : e.succ ∉ n :: rest := hseen e.succ hsuccseen
      have hsn : n ≠ e.succ := fun h => hsucc_notin (h ▸ List.mem_cons_self n rest)
      have hsr : e.succ ∉ rest := fun h => hsucc_notin (List.mem_cons_of_mem n h)
      have hprev := bwdFold_preserve g P esF rest (bwdNode g P esF s n) e.succ hsr
      have hlf : lookupD (bwdFold g P esF (bwdNode g P esF s n) rest).lf e.succ
          = lookupD s.lf e.succ := by
        rw [hprev.1]
        show lookupD ((n, _) :: s.lf) e.succ = _
        rw [lookupD_cons, if_neg hsn]
      have hls : lookupD (bwdFold g P esF (bwdNode g P esF s n) rest).ls e.succ
          = lookupD s.ls e.succ := by
        rw [hprev.2]
        show lookupD ((n, _) :: s.ls) e.succ = _
        rw [lookupD_cons, if_neg hsn]
      cases htype : e.type <;> simp [contribB, specContribB, htype, hlf, hls]

theorem fwdFold_es_nonneg (g : CPMGraph) :
    ∀ (rest : List String) (s : FwdState) (n : String), n ∈ rest →
      0 ≤ lookupD (fwdFold g s rest).es n := by
  intro rest
  induction rest with
  | nil => intro s n h; cases h
  | cons m rest ih =>
    intro s n hn
    rw [fwdFold]
    by_cases hr : n ∈ rest
    · exact ih _ n hr
    · have hnm : n = m := by
        rcases List.mem_cons.mp hn with h | h
        · exact h
        · exact absurd h hr
      subst hnm
      rw [(fwdFold_preserve g rest (fwdNode g s n) n hr).1]
      have hstep : lookupD (fwdNode g s n).es n
          = (g.edges.filter (fun e => e.succ == n)).foldl
              (fun acc e => max acc (contribF s.es s.ef (durOf g n) e)) 0 := by
        show lookupD ((n, _) :: s.es) n = _
        rw [lookupD_cons, if_pos rfl]
      rw [hstep]
      exact foldl_max_init_le _ _ 0

theorem foldl_max2_le_self : ∀ (l : List (String × Int)) (a : Int),
    a ≤ l.foldl (fun m q => max m q.2) a := by
  intro l
  induction l with
  | nil => intro a; exact le_refl a
  | cons q l ih => intro a; exact le_trans (le_max_left a q.2) (ih (max a q.2))

theorem foldl_max2_mem_le : ∀ (l : List (String × Int)) (a : Int) (p : String × Int),
    p ∈ l → p.2 ≤ l.foldl (fun m q => max m q.2) a := by
  intro l
  induction l with
  | nil => intro a p h; cases h
  | cons q l ih =>
    intro a p hp
    rcases List.mem_cons.mp hp with h | h
    · subst h
      exact le_trans (le_max_right a p.2) (foldl_max2_le_self l (max a p.2))
    · exact ih (max a q.2) p h

theorem foldl_max2_attained : ∀ (l : List (String × Int)) (a : Int),
    l.foldl (fun m q => max m q.2) a = a ∨ ∃ p ∈ l, l.foldl (fun m q => max m q.2) a = p.2 := by
  intro l
  induction l with
  | nil => intro a; exact Or.inl rfl
  | cons q l ih =>
    intro a
    rcases ih (max a q.2) with h | ⟨p, hp, hv⟩
    · rcases max_choice a q.2 with hm | hm
      · exact Or.inl (by rw [List.foldl_cons, h, hm])
      · exact Or.inr ⟨q, List.mem_cons_self q l, by rw [List.foldl_cons, h, hm]⟩
    · exact Or.inr ⟨p, List.mem_cons_of_mem q hp, by rw [List.foldl_cons, hv]⟩

/-- Every `ef` value is bounded by the project duration. -/
theorem maxEF_is_upper_bound (ef : List (String × Int)) (p : String × Int) (hp : p ∈ ef) :
    p.2 ≤ maxEF ef := by
  match ef, hp with
  | q :: ps, hp =>
    rcases List.mem_cons.mp hp with h | h
    · subst h
      exact foldl_max2_le_self ps p.2
    · exact foldl_max2_mem_le ps q.2 p h

/-- The project duration is one of the `ef` values when there is any. -/
theorem maxEF_is_attained (ef : List (String × Int)) (hne : ef ≠ []) :
    maxEF ef ∈ ef.map (fun p => p.2) := by
  match ef, hne with
  | q :: ps, _ =>
    rcases foldl_max2_attained ps q.2 with h | ⟨p, hp, hv⟩
    · exact List.mem_map.mpr ⟨q, List.mem_cons_self q ps, h.symm⟩
    · exact List.mem_map.mpr ⟨p, List.mem_cons_of_mem q hp, hv.symm⟩

/-- Every row compiled by the results loop has its critical flag equal to
the test `float == 0`. -/
theorem compileResults_critical_eq (g : CPMGraph) (esM efM lsM : List (String × Int))
    (rows : List Row) (r : ResultRow) (hr : r ∈ compileResults g esM efM lsM rows) :
    r.critical = (r.float == 0) := by
  rcases List.mem_filterMap.mp hr with ⟨row, _, hsome⟩
  dsimp only at hsome
  split at hsome
  · cases hsome
    rfl
  · cases hsome

theorem criticalSeq_is_sublist (res : List ResultRow) :
    (criticalSeq res).Sublist (res.map (fun r => r.id)) := by
  unfold criticalSeq
  exact List.Sublist.map (fun r => r.id) (List.filter_sublist res)

theorem criticalSeq_mem_iff (res : List ResultRow) (i : String) :
    i ∈ criticalSeq res ↔ ∃ r ∈ res, r.critical = true ∧ r.id = i := by
  constructor
  · intro h
    rcases List.mem_map.mp h with ⟨r, hr, hid⟩
    have := List.mem_filter.mp hr
    exact ⟨r, this.1, this.2, hid⟩
  · intro ⟨r, hres, hcrit, hid⟩
    exact List.mem_map.mpr ⟨r, List.mem_filter.mpr ⟨hres, hcrit⟩, hid⟩

theorem ensureNode_edges (g : CPMGraph) (id : String) : (ensureNode g id).edges = g.edges := by
  unfold ensureNode
  split <;> rfl

theorem addNode_edges (g : CPMGraph) (id : String) (d : Int) :
    (addNode g id d).edges = g.edges := by
  unfold addNode
  split <;> rfl

theorem mem_addEdge (g : CPMGraph) (p s : String) (t : RelType) (l : Int) (e : Edge)
    (he : e ∈ (addEdge g p s t l).edges) : e ∈ g.edges ∨ e = ⟨p, s, t, l⟩ := by
  have hg1 : (ensureNode (ensureNode g p) s).edges = g.edges := by
    rw [ensureNode_edges, ensureNode_edges]
  unfold addEdge at he
  dsimp only at he
  rw [hg1] at he
  split at he
  · rcases List.mem_map.mp he with ⟨e0, he0, hfe⟩
    by_cases hc : (e0.pred == p && e0.succ == s) = true
    · rw [if_pos hc] at hfe
      simp only [Bool.and_eq_true, beq_iff_eq] at hc
      right
      rw [← hfe, hc.1, hc.2]
    · rw [if_neg hc] at hfe
      exact Or.inl (hfe ▸ he0)
  · rcases List.mem_append.mp he with h | h
    · exact Or.inl h
    · right
      simpa using h

theorem mem_foldl_addEdge {α : Type} (f1 f2 : α → String) (ft : α → RelType) (fl : α → Int) :
    ∀ (l : List α) (g : CPMGraph) (e : Edge),
      e ∈ (l.foldl (fun h c => addEdge h (f1 c) (f2 c) (ft c) (fl c)) g).edges →
      e ∈ g.edges ∨ ∃ c ∈ l, e = ⟨f1 c, f2 c, ft c, fl c⟩ := by
  intro l
  induction l with
  | nil => intro g e he; exact Or.inl he
  | cons c l ih =>
    intro g e he
    rw [List.foldl_cons] at he
    rcases ih (addEdge g (f1 c) (f2 c) (ft c) (fl c)) e he with h | ⟨c2, hc2, hec⟩
    · rcases mem_addEdge g (f1 c) (f2 c) (ft c) (fl c) e h with h2 | h2
      · exact Or.inl h2
      · exact Or.inr ⟨c, List.mem_cons_self c l, h2⟩
    · exact Or.inr ⟨c2, List.mem_cons_of_mem c hc2, hec⟩

/-- Inversion of a successful pipeline run: the returned rows are the
compiled results of the forward/backward passes on the built graph. -/
theorem runPipeline_ok_inv (rows : List Row) (res : List ResultRow) (P : Int)
    (h : runPipeline rows = Except.ok (res, P)) :
    res = compileResults (buildGraph rows)
        (forwardResult (buildGraph rows) (topoOrder (buildGraph rows))).es
        (forwardResult (buildGraph rows) (topoOrder (buildGraph rows))).ef
        (backwardResult (buildGraph rows) (topoOrder (buildGraph rows))).ls rows := by
  unfold runPipeline at h
  dsimp only at h
  cases hfc : findCycle (buildGraph rows) with
  | some c =>
    rw [hfc] at h
    cases h
  | none =>
    rw [hfc] at h
    injection h with hpair
    injection hpair with h1 h2
    exact h1.symm

/-- The concrete five-activity scenario of §8 of the spec, used as the
concrete instance for the witnesses below. -/
def demoRows : List Row :=
  [⟨"A", "A", 5, "", ""⟩,
   ⟨"B", "B", 3, "A", ""⟩,
   ⟨"C", "C", 4, "B", ""⟩,
   ⟨"D", "D", 2, "B", ""⟩,
   ⟨"E", "E", 3, "C,D", ""⟩]

/-- C1: in a validated acyclic graph processed in topological order, the
forward pass gives every activity an `ES` equal to the max-fold, started
at 0, of the contributions `EF[pred]+lag` (FS), `ES[pred]+lag` (SS),
`EF[pred]+lag-d` (FF), `ES[pred]+lag-d` (SF) of its incoming edges, and
then `EF = ES + d`. -/
theorem forward_pass_edge_rules (g : CPMGraph) (order : List String)
    (hnodup : order.Nodup) (htopo : topoOK g.edges [] order = true)
    (n : String) (hn : n ∈ order) :
    lookupD (forwardResult g order).es n
        = esSpec g (forwardResult g order).es (forwardResult g order).ef n ∧
    lookupD (forwardResult g order).ef n
        = lookupD (forwardResult g order).es n + durOf g n := by
  unfold forwardResult
  exact ⟨fwdFold_fixed_point g order [] ⟨[], []⟩ htopo
           (fun k hk => absurd hk (List.not_mem_nil k)) hnodup n hn,
         fwdFold_ef_eq_es_add g order ⟨[], []⟩ n hn⟩

/-- C1 witness: the scenario of §8 instantiates the forward-pass theorem. -/
theorem forward_pass_edge_rules_witness :
    (topoOrder (buildGraph demoRows)).Nodup ∧
    topoOK (buildGraph demoRows).edges [] (topoOrder (buildGraph demoRows)) = true ∧
    lookupD (forwardResult (buildGraph demoRows) (topoOrder (buildGraph demoRows))).ef "E"
      = lookupD (forwardResult (buildGraph demoRows) (topoOrder (buildGraph demoRows))).es "E"
        + durOf (buildGraph demoRows) "E" :=
  ⟨by decide, by decide,
   (forward_pass_edge_rules (buildGraph demoRows) (topoOrder (buildGraph demoRows))
     (by decide) (by decide) "E" (by decide)).2⟩

/-- C2: processed in reverse topological order with the project duration
`P` equal to the maximum `EF`, the backward pass gives every activity an
`LF` equal to the min-fold, started at `P`, of the contributions
`LS[succ]-lag` (FS), `LS[succ]-lag` (SS), `LF[succ]-lag` (FF),
`ES[succ]-lag` (SF) of its outgoing edges, and then `LS = LF - d`. -/
theorem backward_pass_edge_rules (g : CPMGraph) (order : List String)
    (hnodup : order.reverse.Nodup) (hb : bwdOK g.edges [] order.reverse = true)
    (n : String) (hn : n ∈ order.reverse) :
    lookupD (backwardResult g order).lf n
        = lfSpec g (forwardResult g order).es (backwardResult g order).lf
            (backwardResult g order).ls (projectDuration g order) n ∧
    lookupD (backwardResult g order).ls n
        = lookupD (backwardResult g order).lf n - durOf g n := by
  unfold backwardResult
  exact ⟨bwdFold_fixed_point g (projectDuration g order) (forwardResult g order).es
           order.reverse [] ⟨[], []⟩ hb (fun k hk => absurd hk (List.not_mem_nil k)) hnodup n hn,
         bwdFold_ls_eq_lf_sub g (projectDuration g order) (forwardResult g order).es
           order.reverse ⟨[], []⟩ n hn⟩

/-- C2 witness: the scenario of §8 instantiates the backward-pass theorem. -/
theorem backward_pass_edge_rules_witness :
    (topoOrder (buildGraph demoRows)).reverse.Nodup ∧
    bwdOK (buildGraph demoRows).edges [] (topoOrder (buildGraph demoRows)).reverse = true ∧
    lookupD (backwardResult (buildGraph demoRows) (topoOrder (buildGraph demoRows))).ls "A"
      = lookupD (backwardResult (buildGraph demoRows) (topoOrder (buildGraph demoRows))).lf "A"
        - durOf (buildGraph demoRows) "A" :=
  ⟨by decide, by decide,
   (backward_pass_edge_rules (buildGraph demoRows) (topoOrder (buildGraph demoRows))
     (by decide) (by decide) "A" (by decide)).2⟩

/-- C3: for every activity of any processed schedule — in particular any
validated acyclic graph with arbitrary FS/SS/FF/SF edges and arbitrary
integer lags — the float `LS - ES` equals `LF - EF`. -/
theorem float_two_ways (g : CPMGraph) (order : List String) (n : String) (hn : n ∈ order) :
    lookupD (backwardResult g order).ls n - lookupD (forwardResult g order).es n
      = lookupD (backwardResult g order).lf n - lookupD (forwardResult g order).ef n := by
  have hf := fwdFold_ef_eq_es_add g order ⟨[], []⟩ n hn
  have hb := bwdFold_ls_eq_lf_sub g (projectDuration g order) (forwardResult g order).es
    order.reverse ⟨[], []⟩ n (List.mem_reverse.mpr hn)
  unfold backwardResult
  unfold forwardResult at hb ⊢
  omega

/-- C3 witness: the float identity at activity D of the §8 scenario. -/
theorem float_two_ways_witness :
    ("D" ∈ topoOrder (buildGraph demoRows)) ∧
    lookupD (backwardResult (buildGraph demoRows) (topoOrder (buildGraph demoRows))).ls "D"
        - lookupD (forwardResult (buildGraph demoRows) (topoOrder (buildGraph demoRows))).es "D"
      = lookupD (backwardResult (buildGraph demoRows) (topoOrder (buildGraph demoRows))).lf "D"
        - lookupD (forwardResult (buildGraph demoRows) (topoOrder (buildGraph demoRows))).ef "D" :=
  ⟨by decide,
   float_two_ways (buildGraph demoRows) (topoOrder (buildGraph demoRows)) "D" (by decide)⟩

/-- The constraint-grammar code of a relation type. -/
def relStr : RelType → String
  | RelType.FS => "FS"
  | RelType.SS => "SS"
  | RelType.FF => "FF"
  | RelType.SF => "SF"

/-- The three-activity cyclic schedule with edges A→B, B→C, C→A carrying
the given relation types (each row supplies its incoming edge through a
Constraint token, so the edge gets the requested type). -/
def cycleRows (t1 t2 t3 : RelType) : List Row :=
  [⟨"A", "A", 1, "C", "C[" ++ relStr t3 ++ "]"⟩,
   ⟨"B", "B", 1, "A", "A[" ++ relStr t1 ++ "]"⟩,
   ⟨"C", "C", 1, "B", "B[" ++ relStr t2 ++ "]"⟩]

set_option maxHeartbeats 3200000 in
/-- C4: on the edges A→B→C→A, whatever relation types the three edges
carry, the pipeline stops with a cyclic-dependency error carrying the node
list of the discovered cycle, whose node set is exactly \x7bA, B, C\x7d; no
schedule is produced. -/
theorem cycle_abc_detected (t1 t2 t3 : RelType) :
    runPipeline (cycleRows t1 t2 t3)
      = Except.error (CPMError.cyclicDependency ["A", "B", "C"]) ∧
    (["A", "B", "C"] : List String).toFinset = ({"A", "B", "C"} : Finset String) := by
  cases t1 <;> cases t2 <;> cases t3 <;> exact ⟨rfl, rfl⟩

/-- C4 witness: a mixed-type instance (SS, FF, SF) of the cycle theorem. -/
theorem cycle_abc_detected_witness :
    runPipeline (cycleRows RelType.SS RelType.FF RelType.SF)
      = Except.error (CPMError.cyclicDependency ["A", "B", "C"]) :=
  (cycle_abc_detected RelType.SS RelType.FF RelType.SF).1

/-- The schedule whose single row B names the undeclared predecessor A. -/
def unknownPredRows : List Row := [⟨"B", "B", 3, "A", ""⟩]

/-- C5 counterexample: an edge from an undeclared activity id does not stop
the pipeline — a schedule is produced. -/
theorem unknown_pred_counterexample : pipelineProducesSchedule unknownPredRows = true := rfl

/-- C5 (amended): an edge whose predecessor id names no declared activity
is silently accepted: the missing endpoint is created as an implicit node
with no duration attribute (read as duration 0), it participates in
scheduling, and the pipeline produces a schedule. -/
theorem unknown_pred_silently_added :
    (buildGraph unknownPredRows).nodes = [("B", some 3), ("A", none)] ∧
    (buildGraph unknownPredRows).edges = [⟨"A", "B", RelType.FS, 0⟩] ∧
    runPipeline unknownPredRows = Except.ok ([⟨"B", "B", 3, 0, 3, 0, true⟩], 3) :=
  ⟨rfl, rfl, rfl⟩

/-- C6 counterexample: the parser returns the same value for an input with
a malformed token as for the input without it, so its result carries no
skipped-token count: the caller cannot tell one skipped token (the first
input) from none (the second). -/
theorem parser_no_skip_count :
    parse_logic_constraints "A[FS+5];BOGUS;C[SS-2]" = parse_logic_constraints "A[FS+5];C[SS-2]" ∧
    specSkippedTokens "A[FS+5];BOGUS;C[SS-2]" = 1 ∧
    specSkippedTokens "A[FS+5];C[SS-2]" = 0 :=
  ⟨rfl, rfl, rfl⟩

/-- C6 (amended): the parser never raises — it is a total function; parsing
"A[FS+5]" yields the single relation (A, FS, 5); empty or whitespace-only
input yields the empty list; in "A[FS+5];BOGUS;C[SS-2]" the malformed token
is dropped and the two valid relations are returned, but no skipped-token
count is reported to the caller. -/
theorem parser_results_total :
    parse_logic_constraints "A[FS+5]" = [⟨"A", RelType.FS, 5⟩] ∧
    parse_logic_constraints "" = [] ∧
    parse_logic_constraints "   " = [] ∧
    parse_logic_constraints "A[FS+5];BOGUS;C[SS-2]"
      = [⟨"A", RelType.FS, 5⟩, ⟨"C", RelType.SS, -2⟩] :=
  ⟨rfl, rfl, rfl, rfl⟩

/-- Two-row schedule in which the data row of B precedes the row of A. -/
def rowOrderRows : List Row := [⟨"B", "B", 3, "A", ""⟩, ⟨"A", "A", 5, "", ""⟩]

/-- The result table the pipeline produces for `rowOrderRows`. -/
def rowOrderRes : List ResultRow :=
  [⟨"B", "B", 3, 5, 8, 0, true⟩, ⟨"A", "A", 5, 0, 5, 0, true⟩]

/-- C7 counterexample: the emitted critical-path sequence is B, A (the
input row order), not the ascending-ES order A, B that the claim states. -/
theorem critical_seq_not_es_sorted :
    runPipeline rowOrderRows = Except.ok (rowOrderRes, 8) ∧
    criticalSeq rowOrderRes = ["B", "A"] ∧
    specCriticalSeq rowOrderRes = ["A", "B"] :=
  ⟨rfl, rfl, rfl⟩

/-- C7 (amended): the emitted critical-path sequence consists of exactly
the activities with float 0, in the order of the results table (the input
row order), with no ES sorting and no guarantee of edge connectivity. -/
theorem critical_sequence_from_float (rows : List Row) (res : List ResultRow) (P : Int)
    (h : runPipeline rows = Except.ok (res, P)) :
    (criticalSeq res).Sublist (res.map (fun r => r.id)) ∧
    (∀ i, i ∈ criticalSeq res ↔ ∃ r ∈ res, r.float = 0 ∧ r.id = i) := by
  refine ⟨criticalSeq_is_sublist res, fun i => ?_⟩
  have hres := runPipeline_ok_inv rows res P h
  rw [criticalSeq_mem_iff]
  constructor
  · intro ⟨r, hr, hcrit, hid⟩
    refine ⟨r, hr, ?_, hid⟩
    have := compileResults_critical_eq _ _ _ _ _ r (hres ▸ hr)
    rw [this] at hcrit
    exact beq_iff_eq.mp hcrit
  · intro ⟨r, hr, hfl, hid⟩
    refine ⟨r, hr, ?_, hid⟩
    have := compileResults_critical_eq _ _ _ _ _ r (hres ▸ hr)
    rw [this]
    exact beq_iff_eq.mpr hfl

/-- C7 witness: the amended critical-sequence theorem at the two-row
schedule above, at activity id B. -/
theorem critical_sequence_from_float_witness :
    runPipeline rowOrderRows = Except.ok (rowOrderRes, 8) ∧
    (criticalSeq rowOrderRes).Sublist (rowOrderRes.map (fun r => r.id)) :=
  ⟨rfl, (critical_sequence_from_float rowOrderRows rowOrderRes 8 rfl).1⟩

/-- C8 counterexample: a row with an empty Predecessors field and the valid
constraint "A[FS+5]" yields no edge at all. -/
theorem constraint_without_predecessors_ignored :
    parse_logic_constraints "A[FS+5]" = [⟨"A", RelType.FS, 5⟩] ∧
    (buildGraph [⟨"B", "B", 4, "", "A[FS+5]"⟩]).edges = [] :=
  ⟨rfl, rfl⟩

set_option maxHeartbeats 1000000 in
/-- C8 (amended): edges of a row are added only when its Predecessors field
is a non-empty string; in that case a non-empty parsed constraint list takes
precedence (every edge comes from a constraint record), and otherwise every
edge is an FS lag-0 edge from a bare predecessor; a row with an empty
Predecessors field yields no edges even when its Constraint is valid. -/
theorem row_edge_semantics (row : Row) :
    (row.predecessors = "" → (buildGraph [row]).edges = []) ∧
    (row.predecessors ≠ "" → parse_logic_constraints row.constraint ≠ [] →
      ∀ e ∈ (buildGraph [row]).edges,
        ∃ c ∈ parse_logic_constraints row.constraint,
          e = ⟨c.predecessor, pyStrip row.activityId, c.type, c.lag⟩) ∧
    (row.predecessors ≠ "" → parse_logic_constraints row.constraint = [] →
      ∀ e ∈ (buildGraph [row]).edges,
        e.pred ∈ splitPreds row.predecessors ∧ e.succ = pyStrip row.activityId ∧
          e.type = RelType.FS ∧ e.lag = 0) := by
  have hbg : buildGraph [row] = buildRow ⟨[], []⟩ row := rfl
  by_cases haid : pyStrip row.activityId = ""
  · have hskip : buildRow ⟨[], []⟩ row = ⟨[], []⟩ := by
      unfold buildRow
      rw [if_pos haid]
    rw [hbg, hskip]
    refine ⟨fun _ => rfl, fun _ _ e he => absurd he (List.not_mem_nil e), fun _ _ e he => absurd he (List.not_mem_nil e)⟩
  · refine ⟨?_, ?_, ?_⟩
    · intro hpred
      have : buildRow ⟨[], []⟩ row = addNode ⟨[], []⟩ (pyStrip row.activityId) row.duration := by
        unfold buildRow
        rw [if_neg haid, if_neg (fun hne => hne hpred)]
      rw [hbg, this, addNode_edges]
    · intro hpred hcs e he
      have hstep : buildRow ⟨[], []⟩ row
          = (parse_logic_constraints row.constraint).foldl
              (fun h c => addEdge h c.predecessor (pyStrip row.activityId) c.type c.lag)
              (addNode ⟨[], []⟩ (pyStrip row.activityId) row.duration) := by
        unfold buildRow
        rw [if_neg haid, if_pos hpred, if_neg hcs]
      rw [hbg, hstep] at he
      rcases mem_foldl_addEdge (fun c => c.predecessor) (fun _ => pyStrip row.activityId)
          (fun c => c.type) (fun c => c.lag) (parse_logic_constraints row.constraint)
          (addNode ⟨[], []⟩ (pyStrip row.activityId) row.duration) e he with h | ⟨c, hc, hec⟩
      · rw [addNode_edges] at h
        exact absurd h (List.not_mem_nil e)
      · exact ⟨c, hc, hec⟩
    · intro hpred hcs e he
      have hstep : buildRow ⟨[], []⟩ row
          = (splitPreds row.predecessors).foldl
              (fun h p => addEdge h p (pyStrip row.activityId) RelType.FS 0)
              (addNode ⟨[], []⟩ (pyStrip row.activityId) row.duration) := by
        unfold buildRow
        rw [if_neg haid, if_pos hpred, if_pos hcs]
      rw [hbg, hstep] at he
      rcases mem_foldl_addEdge (fun p => p) (fun _ => pyStrip row.activityId)
          (fun _ => RelType.FS) (fun _ => (0 : Int)) (splitPreds row.predecessors)
          (addNode ⟨[], []⟩ (pyStrip row.activityId) row.duration) e he with h | ⟨p, hp, hep⟩
      · rw [addNode_edges] at h
        exact absurd h (List.not_mem_nil e)
      · rw [hep]
        exact ⟨hp, rfl, rfl, rfl⟩

/-- C8 witness: the row-edge theorem applied to a row with an empty
Predecessors field and a valid constraint. -/
theorem row_edge_semantics_witness :
    ((⟨"B", "B", 4, "", "A[FS+5]"⟩ : Row).predecessors = "") ∧
    (buildGraph [(⟨"B", "B", 4, "", "A[FS+5]"⟩ : Row)]).edges = [] :=
  ⟨rfl, (row_edge_semantics ⟨"B", "B", 4, "", "A[FS+5]"⟩).1 rfl⟩

/-- C9: the reported project duration is the maximum `ef` over all
activities after the forward pass (an upper bound that is attained whenever
any activity exists), and the pipeline is a pure function of its input, so
running it twice on identical input yields identical output. -/
theorem project_duration_max_and_deterministic (rows : List Row) :
    (∀ p ∈ (forwardResult (buildGraph rows) (topoOrder (buildGraph rows))).ef,
        p.2 ≤ projectDuration (buildGraph rows) (topoOrder (buildGraph rows))) ∧
    ((forwardResult (buildGraph rows) (topoOrder (buildGraph rows))).ef ≠ [] →
        projectDuration (buildGraph rows) (topoOrder (buildGraph rows))
          ∈ ((forwardResult (buildGraph rows) (topoOrder (buildGraph rows))).ef).map
              (fun p => p.2)) ∧
    runPipeline rows = runPipeline rows := by
  refine ⟨fun p hp => ?_, fun hne => ?_, rfl⟩
  · exact maxEF_is_upper_bound _ p hp
  · exact maxEF_is_attained _ hne

set_option maxHeartbeats 1000000 in
/-- C9 witness: on the §8 scenario the project duration 15 is an attained
maximum of the `ef` values. -/
theorem project_duration_witness :
    ((forwardResult (buildGraph demoRows) (topoOrder (buildGraph demoRows))).ef ≠ []) ∧
    projectDuration (buildGraph demoRows) (topoOrder (buildGraph demoRows))
      ∈ ((forwardResult (buildGraph demoRows) (topoOrder (buildGraph demoRows))).ef).map
          (fun p => p.2) :=
  ⟨by decide, (project_duration_max_and_deterministic demoRows).2.1 (by decide)⟩

/-- The two-activity schedule whose only edge carries lag −7 from a
zero-duration predecessor, so every contribution to ES of B is negative. -/
def negLagRows : List Row := [⟨"A", "A", 0, "", ""⟩, ⟨"B", "B", 0, "A", "A[FS-7]"⟩]

/-- C10 counterexample: the only incoming contribution of B is −7, so every
contribution is negative, but ES of B is 0, not the largest (negative)
contribution: ES never goes negative. -/
theorem es_not_negative_counterexample :
    ((buildGraph negLagRows).edges.filter (fun e => e.succ == "B")).map
        (specContribF (forwardResult (buildGraph negLagRows) (topoOrder (buildGraph negLagRows))).es
          (forwardResult (buildGraph negLagRows) (topoOrder (buildGraph negLagRows))).ef
          (durOf (buildGraph negLagRows) "B")) = [-7] ∧
    lookupD (forwardResult (buildGraph negLagRows) (topoOrder (buildGraph negLagRows))).es "B" = 0 :=
  ⟨rfl, rfl⟩

/-- C10 (amended): the forward fold starts at 0 for every activity, so ES
is never negative, and when every incoming contribution is negative ES is
exactly 0 (not the largest negative contribution). -/
theorem es_clamped_at_zero (g : CPMGraph) (order : List String)
    (hnodup : order.Nodup) (htopo : topoOK g.edges [] order = true)
    (n : String) (hn : n ∈ order) :
    0 ≤ lookupD (forwardResult g order).es n ∧
    ((∀ e ∈ g.edges.filter (fun e => e.succ == n),
        specContribF (forwardResult g order).es (forwardResult g order).ef (durOf g n) e < 0) →
      lookupD (forwardResult g order).es n = 0) := by
  constructor
  · exact fwdFold_es_nonneg g order ⟨[], []⟩ n hn
  · intro hneg
    have hfix := fwdFold_fixed_point g order [] ⟨[], []⟩ htopo
      (fun k hk => absurd hk (List.not_mem_nil k)) hnodup n hn
    unfold forwardResult
    rw [hfix, esSpec]
    exact foldl_max_const _ _ 0 (fun e he => le_of_lt (hneg e he))

/-- C10 witness: on the negative-lag schedule ES of B is clamped at 0. -/
theorem es_clamped_at_zero_witness :
    (topoOrder (buildGraph negLagRows)).Nodup ∧
    lookupD (forwardResult (buildGraph negLagRows) (topoOrder (buildGraph negLagRows))).es "B" = 0 :=
  ⟨by decide,
   (es_clamped_at_zero (buildGraph negLagRows) (topoOrder (buildGraph negLagRows))
     (by decide) (by decide) "B" (by decide)).2 (by decide)⟩

end CPM
